import Mathlib

set_option maxHeartbeats 1000000

/-!
Verification of the per-record document acquisition and consolidation
pipeline implemented in `refer_win/Elsevier_crawler.py`.

The Python source is shallowly embedded below: pure text manipulation
(the `remove_between_elsevier` sanitizer) becomes functions on `List Char`,
the JSON probing of the full-text response becomes functions over an
explicit JSON value type, the filesystem steps (archive expansion,
extension filtering, PDF-to-HTML extraction) become functions over
explicit file/directory structures, and the module-level record loop
becomes an explicit step function over a batch state, with an `Except`
signalling an uncaught Python exception.
-/

namespace Crawler

/-! ## Character helpers

The sanitizer `remove_between_elsevier` uses `re.IGNORECASE` matching of
the ASCII marker `"elsevier"`, `\s+` whitespace collapsing and `.strip()`.
Case folding and whitespace are modelled at the ASCII level (the marker
and the whitespace classes relevant to the source are ASCII). -/

/-- ASCII lower-casing, as performed by case-insensitive regex matching
of the ASCII marker. -/
def asciiLower (c : Char) : Char :=
  if 'A' ≤ c ∧ c ≤ 'Z' then Char.ofNat (c.toNat + 32) else c

/-- The ASCII whitespace class matched by the Python regex `\s`. -/
def isPySpace (c : Char) : Bool :=
  c == ' ' || c == '\t' || c == '\n' || c == '\r' || c == '\x0b' || c == '\x0c'

/-- The vendor marker `'elsevier'` of `remove_between_elsevier`
(line 50 of the source), lower-cased. -/
def markerL : List Char := ['e', 'l', 's', 'e', 'v', 'i', 'e', 'r']

/-- Case-insensitive test that `pat` (already lower-case) matches at the
head of `l`. -/
def ciStarts : List Char → List Char → Bool
  | [], _ => true
  | _ :: _, [] => false
  | p :: ps, c :: cs => asciiLower c == p && ciStarts ps cs

/-- Index of the first case-insensitive occurrence of the marker
in `l`, if any. -/
def findMarker : List Char → Option Nat
  | [] => none
  | c :: cs =>
    if ciStarts markerL (c :: cs) then some 0
    else (findMarker cs).map (· + 1)

/-- Number of case-insensitive occurrences of the marker in `l`. -/
def countOccsCI : List Char → Nat
  | [] => 0
  | c :: cs => (if ciStarts markerL (c :: cs) then 1 else 0) + countOccsCI cs

/-- One application of `re.sub(r'elsevier.*?elsevier', '', html, count=1)`
(source line 50–51): the leftmost-shortest match spans from the first
marker occurrence to the end of the next occurrence after it; if no such
pair exists the text is unchanged. -/
def removeOnce (l : List Char) : List Char :=
  match findMarker l with
  | none => l
  | some i =>
    match findMarker (l.drop (i + 8)) with
    | none => l
    | some j => l.take i ++ l.drop (i + 8 + j + 8)

/-- Whitespace normalisation used to model `re.sub(r'\s+', ' ', ...)`:
every whitespace character is first turned into a plain space. -/
def wsNorm (c : Char) : Char := if isPySpace c then ' ' else c

/-- Collapse adjacent duplicate spaces (the run-collapsing part of
`re.sub(r'\s+', ' ', ...)` after `wsNorm`). -/
def squeeze : List Char → List Char
  | [] => []
  | [a] => [a]
  | a :: b :: r =>
    if a == ' ' && b == ' ' then squeeze (b :: r)
    else a :: squeeze (b :: r)

/-- The full `re.sub(r'\s+', ' ', ...)` of source line 52. -/
def collapse (l : List Char) : List Char := squeeze (l.map wsNorm)

/-- Leading-whitespace removal of `.strip()`. -/
def lstripWs (l : List Char) : List Char := l.dropWhile isPySpace

/-- Trailing-whitespace removal of `.strip()`. -/
def rstripWs : List Char → List Char
  | [] => []
  | c :: t =>
    match rstripWs t with
    | [] => if isPySpace c then [] else [c]
    | r => c :: r

/-- The `.strip()` of source line 52. -/
def stripWs (l : List Char) : List Char := rstripWs (lstripWs l)

/-- Embedding of `remove_between_elsevier` (source lines 45–53): remove
the first marker-to-marker span once, collapse whitespace runs to single
spaces, and strip. -/
def remove_between_elsevier (s : String) : String :=
  String.mk (stripWs (collapse (removeOnce s.toList)))

/-- Marker-occurrence count of a string, case-insensitive. -/
def markerCount (s : String) : Nat := countOccsCI s.toList

/-- No two adjacent plain spaces. -/
def noAdjSp : List Char → Bool
  | a :: b :: r => !(a == ' ' && b == ' ') && noAdjSp (b :: r)
  | _ => true

/-- No two adjacent whitespace characters of any kind. -/
def noTwoWs : List Char → Bool
  | a :: b :: r => !(isPySpace a && isPySpace b) && noTwoWs (b :: r)
  | _ => true

/-- An optional character that, when present, is not whitespace. -/
def notWsOpt : Option Char → Bool
  | none => true
  | some c => !isPySpace c

/-- Neither a leading nor a trailing whitespace character. -/
def noEdgeWs (l : List Char) : Bool := notWsOpt l.head? && notWsOpt l.getLast?

/-! ## Full-text retrieval (record loop, source lines 352–386)

The response document `doc.data` is a JSON object. The value shapes the
probing code distinguishes (`isinstance(full_text, dict)` /
`isinstance(full_text, str)`) are modelled by `JVal`. -/

/-- JSON-like values delivered by the full-text retrieval response. -/
inductive JVal where
  | s (str : String)
  | obj (fields : List (String × JVal))

/-- First-key-wins field lookup in a JSON object, modelling both
`k in d` (`isSome`) and `d[k]`. -/
def lookupField : List (String × JVal) → String → Option JVal
  | [], _ => none
  | (k', v) :: rest, k => if k' = k then some v else lookupField rest k

/-- Field access on a value (`none` on non-objects). -/
def JVal.get : JVal → String → Option JVal
  | .s _, _ => none
  | .obj fs, k => lookupField fs k

/-- Python truthiness of the resolved value (`if full_text:`): the empty
string and the empty object are falsy. -/
def truthy : JVal → Bool
  | .s str => !(str == "")
  | .obj fs => !fs.isEmpty

mutual

/-- Model of `json.dumps` restricted to the value shapes of `JVal`
(escaping is not modelled; no claim depends on the exact rendering). -/
def jdump : JVal → String
  | .s str => "\"" ++ str ++ "\""
  | .obj fs => "\x7b" ++ jdumpFields fs ++ "\x7d"

/-- Field-list serialisation for `jdump`. -/
def jdumpFields : List (String × JVal) → String
  | [] => ""
  | (k, v) :: rest =>
    "\"" ++ k ++ "\": " ++ jdump v ++
      (if rest.isEmpty then "" else ", ") ++ jdumpFields rest

end

/-- Source lines 355–365: locate the full text. The nested wrapper's
`originalText` and `originalTextHtml` are probed when the wrapper key is
present; the top-level fields sit in `elif` branches and are probed only
when the wrapper key is absent. -/
def probeFullText (data : JVal) : Option JVal :=
  match data.get "full-text-retrieval-response" with
  | some ftrr =>
    match ftrr.get "originalText" with
    | some v => some v
    | none => ftrr.get "originalTextHtml"
  | none =>
    match data.get "originalText" with
    | some v => some v
    | none => data.get "originalTextHtml"

/-- Source lines 367–381: turn the probed value into the manuscript
content; a falsy (`if full_text:`) or absent value yields empty content,
a dict with a `$` field yields that field, a dict without one is
serialised, and a string is passed through. -/
def fullTextContent (data : JVal) : JVal :=
  match probeFullText data with
  | none => JVal.s ""
  | some ft =>
    if truthy ft then
      match ft with
      | JVal.obj fs =>
        match lookupField fs "$" with
        | some d => d
        | none => JVal.s (jdump (JVal.obj fs))
      | JVal.s str => JVal.s str
    else JVal.s ""

/-! ## The record loop (source lines 330–506)

The module-level `for idx, (code, doi, url) in enumerate(...)` loop runs
the stages of one record strictly in sequence. Only two steps are guarded
by `try/except`: the HTML→TXT cleaning (lines 476–494) and the HTML file
deletion (lines 497–501). The render step (422–434), the harvest step
(436, whose first action is the pattern-configuration `open` at lines
204–208), and the normalization steps run bare: an exception there
escapes the loop and ends the process. The embedding records, for one
record, which stages raise, and threads an observable batch state. -/

/-- One worklist record, with flags saying which unguarded stages raise
an unexpected exception, plus whether the guarded cleaning step raises. -/
structure RecSpec where
  code : String
  renderThrows : Bool
  harvestThrows : Bool
  normalizeThrows : Bool
  cleanThrows : Bool

/-- Observable batch state: retained `.txt` artifacts, scratch
directories currently existing, number of completed records, and whether
an uncaught exception ended the run. -/
structure BatchState where
  outputs : List String := []
  scratches : List String := []
  completed : Nat := 0
  halted : Bool := false

/-- The loop body for one record (source lines 330–504): retrieval (which
never escapes), scratch creation (389–392), render, harvest,
archive/filter/convert/extract, scratch removal (458–459), HTML write,
guarded TXT cleaning and guarded HTML deletion. `Except.error` carries
the state at the point an uncaught exception escapes the loop. -/
def processRecord (st : BatchState) (r : RecSpec) :
    Except BatchState BatchState :=
  let st1 : BatchState := { st with scratches := st.scratches ++ [r.code] }
  if r.renderThrows then .error st1
  else if r.harvestThrows then .error st1
  else if r.normalizeThrows then .error st1
  else
    let st2 : BatchState :=
      { st1 with scratches := st1.scratches.filter (fun s => s != r.code) }
    let st3 : BatchState :=
      if r.cleanThrows then st2
      else { st2 with outputs := st2.outputs ++ [r.code ++ ".txt"] }
    .ok { st3 with completed := st3.completed + 1 }

/-- The record loop over the remaining worklist. -/
def runBatchAux (st : BatchState) : List RecSpec → BatchState
  | [] => st
  | r :: rest =>
    match processRecord st r with
    | .error st' => { st' with halted := true }
    | .ok st' => runBatchAux st' rest

/-- The whole run over a worklist, starting from the empty state. -/
def runBatch (rs : List RecSpec) : BatchState := runBatchAux {} rs

/-! ## Filename helpers (ASCII, as used on the scratch-area filenames) -/

/-- ASCII model of Python `str.lower()` on filenames. -/
def lowerStr (s : String) : String := String.mk (s.toList.map asciiLower)

/-- Literal suffix test, modelling `str.endswith`. -/
def strEndsWith (s suffix : String) : Bool := suffix.toList.isSuffixOf s.toList

/-- The extension part of `os.path.splitext`: the suffix from the last
dot, provided some character before that dot is not itself a dot
(all-leading-dot names have no extension). -/
def splitextExt (name : String) : String :=
  let r := name.toList.reverse
  let after := r.takeWhile (fun c => !(c == '.'))
  match r.dropWhile (fun c => !(c == '.')) with
  | [] => ""
  | _ :: before =>
    if before.any (fun c => !(c == '.')) then
      String.mk ('.' :: after.reverse)
    else ""

/-- The stem part of `os.path.splitext`: the name with `splitextExt`
removed. -/
def splitextStem (name : String) : String :=
  String.mk (name.toList.take (name.toList.length - (splitextExt name).toList.length))

/-- The allowed set of `remove_else_file` (source line 191). -/
def allowedExt (e : String) : Bool := e == ".pdf" || e == ".docx" || e == ".doc"

/-- `filename.lower().endswith(('.doc', '.docx'))` (source line 304). -/
def isOfficeName (n : String) : Bool :=
  strEndsWith (lowerStr n) ".doc" || strEndsWith (lowerStr n) ".docx"

/-- `filename.lower().endswith('.pdf')` (source line 313). -/
def isPdfName (n : String) : Bool := strEndsWith (lowerStr n) ".pdf"

/-- `file.lower().endswith('.zip')` (source lines 179 and 440). -/
def isZipName (n : String) : Bool := strEndsWith (lowerStr n) ".zip"

/-! ## Text/structure extraction (source lines 274–298)

`pdf_to_html_with_pdfplumber` walks the pages of one page-oriented
document inside a single `try`; the `except` logs and returns `""` for
the whole document. -/

/-- One page as seen by `pdfplumber`: the optional extracted text, the
extracted tables (first row is the header), and whether extraction of
this page raises an exception. -/
structure Page where
  text : Option String
  tables : List (List (List String))
  failing : Bool

/-- Abstract rendering of one extracted table, standing in for the
external `pandas.DataFrame(...).to_html(index=False)` markup (only that
a table contributes markup matters to the claims). -/
def tableHtml (t : List (List String)) : String :=
  "<table>" ++
    String.intercalate "" (t.map (fun row =>
      "<tr>" ++
        String.intercalate "" (row.map (fun cell =>
          "<td>" ++ cell ++ "</td>")) ++ "</tr>")) ++ "</table>"

/-- Model of `text.replace('\n', '<br>')` (source line 284). -/
def replaceNlBr : List Char → List Char
  | [] => []
  | c :: rest =>
    if c = '\n' then '<' :: 'b' :: 'r' :: '>' :: replaceNlBr rest
    else c :: replaceNlBr rest

/-- Markup contributed by one page (loop body, lines 280–293): the page
text (newlines turned into `<br>`) under a `Page n+1` header when the
text is present and non-empty, then each table's markup followed by
`<br>`. -/
def pageHtml (idx : Nat) (p : Page) : String :=
  (match p.text with
   | some t =>
     if t ≠ "" then
       "<h2>Page " ++ toString (idx + 1) ++ "</h2>\n" ++
         "<p>" ++ String.mk (replaceNlBr t.toList) ++ "</p>\n"
     else ""
   | none => "") ++
  String.intercalate "" (p.tables.map (fun t => tableHtml t ++ "<br>"))

/-- The page loop of `pdf_to_html_with_pdfplumber`; `none` when some page
raises and the exception reaches the enclosing handler. -/
def renderPages (idx : Nat) : List Page → Option String
  | [] => some ""
  | p :: rest =>
    if p.failing then none
    else
      match renderPages (idx + 1) rest with
      | none => none
      | some h => some (pageHtml idx p ++ h)

/-- `pdf_to_html_with_pdfplumber` (lines 274–298): any page failure
reaches the `except`, which logs and returns `""` for the whole
document. -/
def pdf_to_html_with_pdfplumber (pages : List Page) : String :=
  match renderPages 0 pages with
  | none => ""
  | some h => h

/-! ## Scratch-area filtering and normalization (source lines 190–202,
300–316, 449–455)

`remove_else_file` lists only the top level of the scratch directory
(`os.listdir`) and skips non-files (`os.path.isfile`), so the scratch
area is modelled one level deep: top-level files (with their
page-oriented content for the later stages) and immediate subdirectories
with their own files' names. -/

/-- A top-level scratch-area entry. -/
inductive ScratchEntry where
  | file (name : String) (pages : List Page)
  | dir (name : String) (files : List String)

/-- `remove_else_file` (lines 190–202): delete every top-level file whose
lower-cased `splitext` extension is not in the allowed set; directories
are skipped by the `isfile` check, and their contents are never
examined. -/
def remove_else_file (entries : List ScratchEntry) : List ScratchEntry :=
  entries.filter (fun en =>
    match en with
    | .file n _ => allowedExt (lowerStr (splitextExt n))
    | .dir _ _ => true)

/-- `convert_files_to_pdf` (lines 300–306): every top-level office
document gets a sibling PDF named after its stem; the external converter
is modelled as succeeding and preserving the document's page content. -/
def convert_files_to_pdf (entries : List ScratchEntry) : List ScratchEntry :=
  entries ++ entries.filterMap (fun en =>
    match en with
    | .file n pages =>
      if isOfficeName n then
        some (ScratchEntry.file (splitextStem n ++ ".pdf") pages)
      else none
    | .dir _ _ => none)

/-- `convert_files_to_html` (lines 308–316): extract every top-level PDF
and join the per-document strings with a newline. -/
def convert_files_to_html (entries : List ScratchEntry) : String :=
  String.intercalate "\n" (entries.filterMap (fun en =>
    match en with
    | .file n pages =>
      if isPdfName n then some (pdf_to_html_with_pdfplumber pages) else none
    | .dir _ _ => none))

/-- The normalization sequence of the record loop (lines 449–455):
filter, office-to-PDF conversion, PDF-to-HTML extraction. -/
def supplementaryOf (entries : List ScratchEntry) : String :=
  convert_files_to_html (convert_files_to_pdf (remove_else_file entries))

/-! ## Archive expansion (source lines 163–188)

`unzip_file(zip_path, extract_to)` refuses non-ZIP inputs with a warning,
catches `BadZipFile` from damaged archives, and otherwise extracts and
then walks the destination, recursively expanding every `.zip`-named file
into a sibling directory named after its stem (`os.makedirs` runs before
the recursive call, so invalid nested ZIPs leave an empty directory). -/

/-- A file relevant to archive expansion: a valid archive with its
entries, a damaged archive (accepted by `is_zipfile`, failing
extraction), or a plain non-ZIP file. -/
inductive Item where
  | plain (name : String)
  | archive (name : String) (contents : List Item)
  | corrupt (name : String)

/-- Name accessor for `Item`. -/
def Item.name : Item → String
  | .plain n => n
  | .archive n _ => n
  | .corrupt n => n

/-- A directory produced by expansion: the file names present at this
level and the named subdirectories. -/
inductive DirNode where
  | mk (files : List String) (subs : List (String × DirNode))

mutual

/-- `unzip_file` as the contents added under the destination: nothing for
an invalid ZIP (warning only, line 167–169) or a damaged one
(`BadZipFile` caught, line 185–186), else the archive's entries plus the
recursively expanded nested archives. -/
def unzip_file : Item → DirNode
  | .archive _ cs => DirNode.mk (cs.map Item.name) (subsOf cs)
  | .plain _ => DirNode.mk [] []
  | .corrupt _ => DirNode.mk [] []

/-- The nested-archive walk (lines 177–184) over the files of one
directory: every `.zip`-named file gets a sibling directory named after
its stem, holding that file's own expansion. -/
def subsOf : List Item → List (String × DirNode)
  | [] => []
  | it :: rest =>
    if isZipName it.name then
      (splitextStem it.name, unzip_file it) :: subsOf rest
    else subsOf rest

end

/-! ### Lemmas about the sanitizer -/

theorem asciiLower_of_space {c : Char} (h : isPySpace c = true) :
    asciiLower c = c := by
  simp only [isPySpace, Bool.or_eq_true, beq_iff_eq] at h
  rcases h with ((((h | h) | h) | h) | h) | h <;> subst h <;> decide

theorem isPySpace_false_of_letter {p : Char} (h1 : 'a' ≤ p) (h2 : p ≤ 'z') :
    isPySpace p = false := by
  cases hp : isPySpace p
  · rfl
  · simp only [isPySpace, Bool.or_eq_true, beq_iff_eq] at hp
    rcases hp with ((((h | h) | h) | h) | h) | h <;> subst h <;>
      exact absurd h1 (by decide)

theorem beq_asciiLower_wsNorm {p c : Char} (h1 : 'a' ≤ p) (h2 : p ≤ 'z') :
    (asciiLower (wsNorm c) == p) = (asciiLower c == p) := by
  by_cases hs : isPySpace c = true
  · have hc : asciiLower c = c := asciiLower_of_space hs
    have hcp : (c == p) = false := by
      cases hcp : c == p
      · rfl
      · have : c = p := by simpa using hcp
        subst this
        rw [isPySpace_false_of_letter h1 h2] at hs
        cases hs
    have hsp : ((' ' : Char) == p) = false := by
      cases hsp : (' ' : Char) == p
      · rfl
      · have : (' ' : Char) = p := by simpa using hsp
        subst this
        exact absurd h1 (by decide)
    rw [wsNorm, if_pos hs, hc, hcp]
    have : asciiLower ' ' = ' ' := by decide
    rw [this, hsp]
  · rw [wsNorm, if_neg hs]

theorem markerL_letters : ∀ p ∈ markerL, 'a' ≤ p ∧ p ≤ 'z' := by decide

theorem ciStarts_append {w l : List Char} (u : List Char)
    (h : ciStarts w l = true) : ciStarts w (l ++ u) = true := by
  induction w generalizing l with
  | nil => rfl
  | cons p ps ih =>
    cases l with
    | nil => cases h
    | cons c cs =>
      simp only [ciStarts, Bool.and_eq_true] at h ⊢
      exact ⟨h.1, ih h.2⟩

theorem countOccsCI_tail_le (c : Char) (cs : List Char) :
    countOccsCI cs ≤ countOccsCI (c :: cs) := by
  simp only [countOccsCI]
  omega

theorem countOccsCI_drop_le : ∀ (m : Nat) (l : List Char),
    countOccsCI (l.drop m) ≤ countOccsCI l := by
  intro m
  induction m with
  | zero => intro l; simp
  | succ n ih =>
    intro l
    cases l with
    | nil => simp
    | cons c cs =>
      calc countOccsCI ((c :: cs).drop (n + 1)) = countOccsCI (cs.drop n) := rfl
        _ ≤ countOccsCI cs := ih cs
        _ ≤ countOccsCI (c :: cs) := countOccsCI_tail_le c cs

theorem countOccsCI_pos_of_starts {l : List Char}
    (h : ciStarts markerL l = true) : 1 ≤ countOccsCI l := by
  cases l with
  | nil => cases h
  | cons c cs =>
    simp only [countOccsCI, if_pos h]
    omega

theorem countOccsCI_starts_drop8 {l : List Char}
    (h : ciStarts markerL l = true) :
    1 + countOccsCI (l.drop 8) ≤ countOccsCI l := by
  cases l with
  | nil => cases h
  | cons c cs =>
    have h7 : countOccsCI (cs.drop 7) ≤ countOccsCI cs := countOccsCI_drop_le 7 cs
    have hd : (c :: cs).drop 8 = cs.drop 7 := rfl
    simp only [countOccsCI, if_pos h, hd]
    omega

theorem findMarker_starts : ∀ {l : List Char} {i : Nat},
    findMarker l = some i → ciStarts markerL (l.drop i) = true := by
  intro l
  induction l with
  | nil => intro i h; cases h
  | cons c cs ih =>
    intro i h
    by_cases hc : ciStarts markerL (c :: cs) = true
    · rw [findMarker, if_pos hc] at h
      cases h
      simpa using hc
    · rw [findMarker, if_neg hc] at h
      rcases Option.map_eq_some'.mp h with ⟨i', hi', rfl⟩
      exact ih hi'

theorem removeOnce_of_count_le_one {l : List Char}
    (h : countOccsCI l ≤ 1) : removeOnce l = l := by
  cases hf : findMarker l with
  | none => simp only [removeOnce, hf]
  | some i =>
    cases hf2 : findMarker (l.drop (i + 8)) with
    | none => simp only [removeOnce, hf, hf2]
    | some j =>
      exfalso
      have h1 : ciStarts markerL (l.drop i) = true := findMarker_starts hf
      have h2 : ciStarts markerL ((l.drop (i + 8)).drop j) = true :=
        findMarker_starts hf2
      have h3 : 1 ≤ countOccsCI ((l.drop (i + 8)).drop j) :=
        countOccsCI_pos_of_starts h2
      have h4 : countOccsCI ((l.drop (i + 8)).drop j) ≤
          countOccsCI (l.drop (i + 8)) := countOccsCI_drop_le j _
      have h5 : l.drop (i + 8) = (l.drop i).drop 8 := by
        rw [List.drop_drop]
      have h6 : 1 + countOccsCI ((l.drop i).drop 8) ≤ countOccsCI (l.drop i) :=
        countOccsCI_starts_drop8 h1
      have h7 : countOccsCI (l.drop i) ≤ countOccsCI l := countOccsCI_drop_le i l
      rw [h5] at h3 h4
      omega

theorem ciStarts_map_wsNorm : ∀ (w l : List Char),
    (∀ p ∈ w, 'a' ≤ p ∧ p ≤ 'z') →
    ciStarts w (l.map wsNorm) = ciStarts w l := by
  intro w
  induction w with
  | nil => intro l _; rfl
  | cons p ps ih =>
    intro l hw
    cases l with
    | nil => rfl
    | cons c cs =>
      have hp := hw p (by simp)
      have hps : ∀ q ∈ ps, 'a' ≤ q ∧ q ≤ 'z' := fun q hq => hw q (by simp [hq])
      simp only [List.map_cons, ciStarts]
      rw [beq_asciiLower_wsNorm hp.1 hp.2, ih cs hps]

theorem countOccsCI_map_wsNorm : ∀ (l : List Char),
    countOccsCI (l.map wsNorm) = countOccsCI l := by
  intro l
  induction l with
  | nil => rfl
  | cons c cs ih =>
    have hmap : (c :: cs).map wsNorm = wsNorm c :: cs.map wsNorm := rfl
    simp only [hmap, countOccsCI]
    rw [ih]
    have : ciStarts markerL (wsNorm c :: cs.map wsNorm) =
        ciStarts markerL (c :: cs) := by
      have := ciStarts_map_wsNorm markerL (c :: cs) markerL_letters
      simpa [hmap] using this
    rw [this]

theorem squeeze_cons_space : ∀ (r : List Char),
    ∃ t, squeeze (' ' :: r) = ' ' :: t := by
  intro r
  induction r with
  | nil => exact ⟨[], rfl⟩
  | cons c r' ih =>
    by_cases hc : c = ' '
    · subst hc
      have : squeeze (' ' :: ' ' :: r') = squeeze (' ' :: r') := by
        simp [squeeze]
      rw [this]
      exact ih
    · have hcb : (c == ' ') = false := by simpa using hc
      have : squeeze (' ' :: c :: r') = ' ' :: squeeze (c :: r') := by
        simp [squeeze, hcb]
      exact ⟨squeeze (c :: r'), this⟩

theorem ciStarts_squeeze : ∀ (l w : List Char), w ≠ [] →
    (∀ p ∈ w, 'a' ≤ p ∧ p ≤ 'z') →
    ciStarts w (squeeze l) = true → ciStarts w l = true := by
  intro l
  induction l with
  | nil =>
    intro w hw _ h
    cases w with
    | nil => exact absurd rfl hw
    | cons p ps => cases h
  | cons a t ih =>
    intro w hw hlet h
    cases t with
    | nil => exact h
    | cons b r =>
      by_cases hd : (a == ' ' && b == ' ') = true
      · exfalso
        have hsq : squeeze (a :: b :: r) = squeeze (b :: r) := by
          simp [squeeze, hd]
        have hb : b = ' ' := by
          have := hd
          simp only [Bool.and_eq_true, beq_iff_eq] at this
          exact this.2
        subst hb
        rcases squeeze_cons_space r with ⟨t', ht'⟩
        rw [hsq, ht'] at h
        cases w with
        | nil => exact hw rfl
        | cons p ps =>
          have hp := hlet p (by simp)
          simp only [ciStarts, Bool.and_eq_true, beq_iff_eq] at h
          have : asciiLower ' ' = ' ' := by decide
          rw [this] at h
          rcases h with ⟨h1, _⟩
          subst h1
          exact absurd hp.1 (by decide)
      · have hsq : squeeze (a :: b :: r) = a :: squeeze (b :: r) := by
          simp only [squeeze, hd]
          rw [if_neg (by simp [hd])]
        rw [hsq] at h
        cases w with
        | nil => rfl
        | cons p ps =>
          simp only [ciStarts, Bool.and_eq_true] at h ⊢
          refine ⟨h.1, ?_⟩
          cases ps with
          | nil => rfl
          | cons q qs =>
            exact ih (q :: qs) (by simp)
              (fun x hx => hlet x (by simp [hx])) h.2

theorem countOccsCI_squeeze_le : ∀ (l : List Char),
    countOccsCI (squeeze l) ≤ countOccsCI l := by
  intro l
  induction l with
  | nil => simp [squeeze]
  | cons a t ih =>
    cases t with
    | nil => simp [squeeze]
    | cons b r =>
      by_cases hd : (a == ' ' && b == ' ') = true
      · have hsq : squeeze (a :: b :: r) = squeeze (b :: r) := by
          simp [squeeze, hd]
        rw [hsq]
        exact le_trans ih (countOccsCI_tail_le a (b :: r))
      · have hsq : squeeze (a :: b :: r) = a :: squeeze (b :: r) := by
          simp only [squeeze, hd]
          rw [if_neg (by simp [hd])]
        rw [hsq]
        have hL : countOccsCI (a :: squeeze (b :: r)) =
            (if ciStarts markerL (a :: squeeze (b :: r)) then 1 else 0) +
              countOccsCI (squeeze (b :: r)) := rfl
        have hR : countOccsCI (a :: b :: r) =
            (if ciStarts markerL (a :: b :: r) then 1 else 0) +
              countOccsCI (b :: r) := rfl
        rw [hL, hR]
        by_cases hc : ciStarts markerL (a :: squeeze (b :: r)) = true
        · have hc' : ciStarts markerL (a :: b :: r) = true := by
            have := ciStarts_squeeze (a :: b :: r) markerL (by decide)
              markerL_letters
            rw [hsq] at this
            exact this hc
          rw [if_pos hc, if_pos hc']
          omega
        · rw [if_neg hc]
          by_cases hc' : ciStarts markerL (a :: b :: r) = true
          · rw [if_pos hc']; omega
          · rw [if_neg hc']; omega

theorem countOccsCI_dropWhile_le (p : Char → Bool) : ∀ (l : List Char),
    countOccsCI (l.dropWhile p) ≤ countOccsCI l := by
  intro l
  induction l with
  | nil => simp
  | cons c cs ih =>
    by_cases hc : p c = true
    · rw [List.dropWhile_cons, if_pos hc]
      exact le_trans ih (countOccsCI_tail_le c cs)
    · rw [List.dropWhile_cons, if_neg hc]

theorem rstripWs_append : ∀ (l : List Char), ∃ u, l = rstripWs l ++ u := by
  intro l
  induction l with
  | nil => exact ⟨[], rfl⟩
  | cons c t ih =>
    rcases ih with ⟨u, hu⟩
    cases hr : rstripWs t with
    | nil =>
      by_cases hc : isPySpace c = true
      · refine ⟨c :: t, ?_⟩
        simp [rstripWs, hr, hc]
      · refine ⟨t, ?_⟩
        simp only [rstripWs, hr]
        rw [if_neg hc]
        rfl
    | cons x xs =>
      refine ⟨u, ?_⟩
      simp only [rstripWs, hr]
      rw [hr] at hu
      simp [hu]

theorem countOccsCI_rstripWs_le : ∀ (l : List Char),
    countOccsCI (rstripWs l) ≤ countOccsCI l := by
  intro l
  induction l with
  | nil => simp [rstripWs]
  | cons c t ih =>
    cases hr : rstripWs t with
    | nil =>
      by_cases hc : isPySpace c = true
      · simp [rstripWs, hr, hc, countOccsCI]
      · have : rstripWs (c :: t) = [c] := by
          simp only [rstripWs, hr]
          rw [if_neg hc]
        rw [this]
        have h1 : countOccsCI [c] = 0 := by
          simp [countOccsCI, ciStarts, markerL]
        rw [h1]
        omega
    | cons x xs =>
      have hrs : rstripWs (c :: t) = c :: rstripWs t := by
        simp [rstripWs, hr]
      rw [hrs]
      have hL : countOccsCI (c :: rstripWs t) =
          (if ciStarts markerL (c :: rstripWs t) then 1 else 0) +
            countOccsCI (rstripWs t) := rfl
      have hR : countOccsCI (c :: t) =
          (if ciStarts markerL (c :: t) then 1 else 0) +
            countOccsCI t := rfl
      rw [hL, hR]
      have hle : (if ciStarts markerL (c :: rstripWs t) then 1 else 0) ≤
          (if ciStarts markerL (c :: t) then 1 else 0) := by
        by_cases hc : ciStarts markerL (c :: rstripWs t) = true
        · rcases rstripWs_append t with ⟨u, hu⟩
          have h2 : ciStarts markerL ((c :: rstripWs t) ++ u) = true :=
            ciStarts_append u hc
          have h3 : (c :: rstripWs t) ++ u = c :: t := by
            rw [List.cons_append, ← hu]
          rw [h3] at h2
          rw [if_pos hc, if_pos h2]
        · rw [if_neg hc]
          omega
      omega

theorem countOccsCI_sanitize_le (l : List Char) :
    countOccsCI (stripWs (collapse l)) ≤ countOccsCI l := by
  calc countOccsCI (stripWs (collapse l))
      = countOccsCI (rstripWs (lstripWs (collapse l))) := rfl
    _ ≤ countOccsCI (lstripWs (collapse l)) := countOccsCI_rstripWs_le _
    _ ≤ countOccsCI (collapse l) := countOccsCI_dropWhile_le _ _
    _ = countOccsCI (squeeze (l.map wsNorm)) := rfl
    _ ≤ countOccsCI (l.map wsNorm) := countOccsCI_squeeze_le _
    _ = countOccsCI l := countOccsCI_map_wsNorm l

theorem mem_squeeze : ∀ {l : List Char} {c : Char}, c ∈ squeeze l → c ∈ l := by
  intro l
  induction l with
  | nil => intro c h; cases h
  | cons a t ih =>
    intro c h
    cases t with
    | nil => exact h
    | cons b r =>
      by_cases hd : (a == ' ' && b == ' ') = true
      · have hsq : squeeze (a :: b :: r) = squeeze (b :: r) := by
          simp [squeeze, hd]
        rw [hsq] at h
        exact List.mem_cons_of_mem a (ih h)
      · have hsq : squeeze (a :: b :: r) = a :: squeeze (b :: r) := by
          simp only [squeeze, hd]
          rw [if_neg (by simp [hd])]
        rw [hsq] at h
        rcases List.mem_cons.mp h with h | h
        · exact h ▸ List.mem_cons_self a _
        · exact List.mem_cons_of_mem a (ih h)

theorem mem_collapse_space {l : List Char} {c : Char}
    (h : c ∈ collapse l) (hws : isPySpace c = true) : c = ' ' := by
  have h1 : c ∈ l.map wsNorm := mem_squeeze h
  rcases List.mem_map.mp h1 with ⟨d, _, hd⟩
  by_cases hdw : isPySpace d = true
  · rw [wsNorm, if_pos hdw] at hd
    exact hd.symm
  · rw [wsNorm, if_neg hdw] at hd
    rw [← hd] at hws
    exact absurd hws (by simpa using hdw)

theorem mem_dropWhile_sub (p : Char → Bool) :
    ∀ {l : List Char} {c : Char}, c ∈ l.dropWhile p → c ∈ l := by
  intro l
  induction l with
  | nil => intro c h; exact h
  | cons a t ih =>
    intro c h
    by_cases ha : p a = true
    · rw [List.dropWhile_cons, if_pos ha] at h
      exact List.mem_cons_of_mem a (ih h)
    · rw [List.dropWhile_cons, if_neg ha] at h
      exact h

theorem mem_rstripWs {l : List Char} {c : Char} (h : c ∈ rstripWs l) :
    c ∈ l := by
  rcases rstripWs_append l with ⟨u, hu⟩
  rw [hu]
  exact List.mem_append_left u h

theorem head_dropWhile_not (p : Char → Bool) :
    ∀ {l : List Char} {c : Char}, (l.dropWhile p).head? = some c →
      p c = false := by
  intro l
  induction l with
  | nil => intro c h; cases h
  | cons a t ih =>
    intro c h
    by_cases ha : p a = true
    · rw [List.dropWhile_cons, if_pos ha] at h
      exact ih h
    · rw [List.dropWhile_cons, if_neg ha] at h
      cases h
      simpa using ha

theorem rstripWs_head {l : List Char} {x : Char} {xs : List Char}
    (h : rstripWs l = x :: xs) : l.head? = some x := by
  rcases rstripWs_append l with ⟨u, hu⟩
  rw [hu, h]
  rfl

theorem squeeze_head_of_ne {b : Char} (r : List Char)
    (hb : (b == ' ') = false) : ∃ t, squeeze (b :: r) = b :: t := by
  cases r with
  | nil => exact ⟨[], rfl⟩
  | cons c r' =>
    refine ⟨squeeze (c :: r'), ?_⟩
    simp only [squeeze]
    rw [if_neg (by simp [hb])]

theorem noAdjSp_tail {c : Char} {t : List Char}
    (h : noAdjSp (c :: t) = true) : noAdjSp t = true := by
  cases t with
  | nil => rfl
  | cons b r =>
    simp only [noAdjSp, Bool.and_eq_true] at h
    exact h.2

theorem squeeze_noAdjSp : ∀ (l : List Char), noAdjSp (squeeze l) = true := by
  intro l
  induction l with
  | nil => rfl
  | cons a t ih =>
    cases t with
    | nil => rfl
    | cons b r =>
      by_cases hd : (a == ' ' && b == ' ') = true
      · have hsq : squeeze (a :: b :: r) = squeeze (b :: r) := by
          simp [squeeze, hd]
        rw [hsq]
        exact ih
      · have hsq : squeeze (a :: b :: r) = a :: squeeze (b :: r) := by
          simp only [squeeze, hd]
          rw [if_neg (by simp [hd])]
        rw [hsq]
        cases hq : squeeze (b :: r) with
        | nil => rfl
        | cons x xs =>
          have hx : noAdjSp (x :: xs) = true := by rw [← hq]; exact ih
          have hax : (a == ' ' && x == ' ') = false := by
            by_cases hb : (b == ' ') = true
            · have ha : (a == ' ') = false := by
                cases hab : a == ' '
                · rfl
                · exact absurd (by rw [hab, hb]; rfl) hd
              simp [ha]
            · rcases squeeze_head_of_ne r (by simpa using hb) with ⟨t', ht'⟩
              rw [ht'] at hq
              cases hq
              simp [hb]
          simp only [noAdjSp, Bool.and_eq_true]
          exact ⟨by simp [hax], hx⟩

theorem noAdjSp_append_left : ∀ {l : List Char} (u : List Char),
    noAdjSp (l ++ u) = true → noAdjSp l = true := by
  intro l
  induction l with
  | nil => intro u _; rfl
  | cons a t ih =>
    intro u h
    cases t with
    | nil => rfl
    | cons b r =>
      have happ : (a :: b :: r) ++ u = a :: b :: (r ++ u) := rfl
      rw [happ] at h
      simp only [noAdjSp, Bool.and_eq_true] at h ⊢
      exact ⟨h.1, ih u h.2⟩

theorem noAdjSp_dropWhile (p : Char → Bool) : ∀ {l : List Char},
    noAdjSp l = true → noAdjSp (l.dropWhile p) = true := by
  intro l
  induction l with
  | nil => intro h; exact h
  | cons a t ih =>
    intro h
    by_cases ha : p a = true
    · rw [List.dropWhile_cons, if_pos ha]
      exact ih (noAdjSp_tail h)
    · rw [List.dropWhile_cons, if_neg ha]
      exact h

theorem noAdjSp_rstripWs {l : List Char} (h : noAdjSp l = true) :
    noAdjSp (rstripWs l) = true := by
  rcases rstripWs_append l with ⟨u, hu⟩
  rw [hu] at h
  exact noAdjSp_append_left u h

theorem squeeze_fix : ∀ {l : List Char}, noAdjSp l = true → squeeze l = l := by
  intro l
  induction l with
  | nil => intro _; rfl
  | cons a t ih =>
    intro h
    cases t with
    | nil => rfl
    | cons b r =>
      simp only [noAdjSp, Bool.and_eq_true] at h
      obtain ⟨h1, h2⟩ := h
      have hd : (a == ' ' && b == ' ') = false := by
        cases hx : (a == ' ' && b == ' ')
        · rfl
        · rw [hx] at h1
          simp at h1
      simp only [squeeze]
      rw [if_neg (by simp [hd])]
      rw [ih h2]

theorem map_wsNorm_fix : ∀ {l : List Char},
    (∀ c ∈ l, isPySpace c = true → c = ' ') → l.map wsNorm = l := by
  intro l
  induction l with
  | nil => intro _; rfl
  | cons c t ih =>
    intro h
    have hc : wsNorm c = c := by
      by_cases hw : isPySpace c = true
      · rw [wsNorm, if_pos hw, h c (List.mem_cons_self c t) hw]
      · rw [wsNorm, if_neg hw]
    simp only [List.map_cons, hc]
    rw [ih (fun x hx hw => h x (List.mem_cons_of_mem c hx) hw)]

theorem lstripWs_fix {l : List Char}
    (h : ∀ c, l.head? = some c → isPySpace c = false) : lstripWs l = l := by
  cases l with
  | nil => rfl
  | cons c t =>
    have hc : isPySpace c = false := h c rfl
    rw [lstripWs, List.dropWhile_cons, if_neg (by simp [hc])]

theorem rstripWs_getLast_not : ∀ {l : List Char} {c : Char},
    (rstripWs l).getLast? = some c → isPySpace c = false := by
  intro l
  induction l with
  | nil => intro c h; cases h
  | cons a t ih =>
    intro c h
    cases hr : rstripWs t with
    | nil =>
      by_cases ha : isPySpace a = true
      · rw [rstripWs, hr] at h
        simp only [ha] at h
        cases h
      · rw [rstripWs, hr] at h
        simp only [if_neg ha] at h
        have : a = c := by
          have := h
          simp [List.getLast?] at this
          exact this
        rw [← this]
        simpa using ha
    | cons x xs =>
      have hrs : rstripWs (a :: t) = a :: rstripWs t := by
        simp [rstripWs, hr]
      rw [hrs, hr] at h
      have : (a :: x :: xs).getLast? = (x :: xs).getLast? := by
        simp [List.getLast?_cons_cons]
      rw [this, ← hr] at h
      exact ih h

theorem rstripWs_fix : ∀ {l : List Char},
    (∀ c, l.getLast? = some c → isPySpace c = false) → rstripWs l = l := by
  intro l
  induction l with
  | nil => intro _; rfl
  | cons a t ih =>
    intro h
    cases t with
    | nil =>
      have ha : isPySpace a = false := h a rfl
      rw [rstripWs]
      simp [rstripWs, ha]
    | cons d t' =>
      have hlast : (a :: d :: t').getLast? = (d :: t').getLast? := by
        simp [List.getLast?_cons_cons]
      have ht : rstripWs (d :: t') = d :: t' := by
        apply ih
        intro c hc
        apply h
        rw [hlast]
        exact hc
      rw [rstripWs, ht]

theorem noTwoWs_of : ∀ {l : List Char},
    (∀ c ∈ l, isPySpace c = true → c = ' ') → noAdjSp l = true →
    noTwoWs l = true := by
  intro l
  induction l with
  | nil => intro _ _; rfl
  | cons a t ih =>
    intro hm ha
    cases t with
    | nil => rfl
    | cons b r =>
      simp only [noAdjSp, Bool.and_eq_true] at ha
      simp only [noTwoWs, Bool.and_eq_true]
      constructor
      · cases hws : (isPySpace a && isPySpace b)
        · rfl
        · exfalso
          simp only [Bool.and_eq_true] at hws
          have ha' : a = ' ' := hm a (List.mem_cons_self a _) hws.1
          have hb' : b = ' ' := hm b (List.mem_cons_of_mem a
            (List.mem_cons_self b _)) hws.2
          rcases ha with ⟨h1, _⟩
          rw [ha', hb'] at h1
          simp at h1
      · exact ih (fun x hx hw => hm x (List.mem_cons_of_mem a hx) hw) ha.2

/-- Shape invariants of the sanitizer output `stripWs (collapse l)`:
whitespace is a single plain space, never doubled, never at an edge. -/
theorem stripCollapse_invariants (l : List Char) :
    (∀ c ∈ stripWs (collapse l), isPySpace c = true → c = ' ') ∧
    noAdjSp (stripWs (collapse l)) = true ∧
    (∀ c, (stripWs (collapse l)).head? = some c → isPySpace c = false) ∧
    (∀ c, (stripWs (collapse l)).getLast? = some c → isPySpace c = false) := by
  refine ⟨?_, ?_, ?_, ?_⟩
  · intro c hc hw
    exact mem_collapse_space (mem_dropWhile_sub _ (mem_rstripWs hc)) hw
  · exact noAdjSp_rstripWs (noAdjSp_dropWhile _ (squeeze_noAdjSp _))
  · intro c hc
    cases hr : rstripWs (lstripWs (collapse l)) with
    | nil =>
      rw [stripWs, hr] at hc
      cases hc
    | cons x xs =>
      rw [stripWs, hr] at hc
      cases hc
      exact head_dropWhile_not _ (rstripWs_head hr)
  · intro c hc
    exact rstripWs_getLast_not hc

/-- Applying `collapse` then `stripWs` to an already collapsed-and-stripped
list is the identity. -/
theorem stripCollapse_idem (l : List Char) :
    stripWs (collapse (stripWs (collapse l))) = stripWs (collapse l) := by
  rcases stripCollapse_invariants l with ⟨h1, h2, h3, h4⟩
  rw [collapse, map_wsNorm_fix h1, squeeze_fix h2, stripWs,
    lstripWs_fix h3, rstripWs_fix h4]

/-- With at most one marker occurrence, the single regex substitution does
nothing, so the sanitizer only collapses whitespace and strips. -/
theorem rbe_eq_of_count_le_one (s : String) (h : markerCount s ≤ 1) :
    remove_between_elsevier s = String.mk (stripWs (collapse s.toList)) := by
  rw [remove_between_elsevier, removeOnce_of_count_le_one h]

/-- C6: `remove_between_elsevier` removes the span from the first
case-insensitive marker occurrence to the end of the next one inclusive,
in a single pass (later marker pairs are left in place), and then collapses
whitespace runs and trims; a text with at most one marker occurrence is
returned unchanged apart from whitespace collapsing and trimming. -/
theorem c6_sanitize_single_pass :
    remove_between_elsevier "A Elsevier B Elsevier C" = "A C" ∧
    remove_between_elsevier "x ELSEVIER y elsevier z Elsevier w elsevier v" =
      "x z Elsevier w elsevier v" ∧
    (∀ s : String, markerCount s ≤ 1 →
      remove_between_elsevier s = String.mk (stripWs (collapse s.toList))) :=
  ⟨by decide, by decide, fun s h => rbe_eq_of_count_le_one s h⟩

/-- Witness for C6: the universally quantified part applied to a concrete
single-marker input. -/
theorem c6_sanitize_single_pass_witness :
    markerCount "only one  Elsevier\there" ≤ 1 ∧
    remove_between_elsevier "only one  Elsevier\there" =
      String.mk (stripWs (collapse ("only one  Elsevier\there").toList)) :=
  ⟨by decide,
    c6_sanitize_single_pass.2.2 "only one  Elsevier\there" (by decide)⟩

/-- C8: the sanitizer is idempotent on every input with at most one
case-insensitive marker occurrence. -/
theorem c8_sanitize_idempotent (x : String) (h : markerCount x ≤ 1) :
    remove_between_elsevier (remove_between_elsevier x) =
      remove_between_elsevier x := by
  have h1 : remove_between_elsevier x =
      String.mk (stripWs (collapse x.toList)) := rbe_eq_of_count_le_one x h
  have hcount : countOccsCI (stripWs (collapse x.toList)) ≤ 1 :=
    le_trans (countOccsCI_sanitize_le x.toList) h
  rw [h1]
  have h2 : remove_between_elsevier (String.mk (stripWs (collapse x.toList))) =
      String.mk (stripWs (collapse (stripWs (collapse x.toList)))) := by
    rw [remove_between_elsevier]
    have htl : (String.mk (stripWs (collapse x.toList))).toList =
        stripWs (collapse x.toList) := rfl
    rw [htl, removeOnce_of_count_le_one hcount]
  rw [h2, stripCollapse_idem]

/-- Witness for C8 at a concrete single-marker input. -/
theorem c8_sanitize_idempotent_witness :
    markerCount "a Elsevier  b " ≤ 1 ∧
    remove_between_elsevier (remove_between_elsevier "a Elsevier  b ") =
      remove_between_elsevier "a Elsevier  b " :=
  ⟨by decide, c8_sanitize_idempotent "a Elsevier  b " (by decide)⟩

/-- C10: for every input, the sanitizer output has no two consecutive
whitespace characters and no leading or trailing whitespace. -/
theorem c10_sanitize_whitespace_normal (s : String) :
    (noTwoWs (remove_between_elsevier s).toList &&
      noEdgeWs (remove_between_elsevier s).toList) = true := by
  have htl : (remove_between_elsevier s).toList =
      stripWs (collapse (removeOnce s.toList)) := rfl
  rcases stripCollapse_invariants (removeOnce s.toList) with ⟨h1, h2, h3, h4⟩
  rw [htl]
  have hn : noTwoWs (stripWs (collapse (removeOnce s.toList))) = true :=
    noTwoWs_of h1 h2
  have hh : notWsOpt (stripWs (collapse (removeOnce s.toList))).head? = true := by
    cases hx : (stripWs (collapse (removeOnce s.toList))).head? with
    | none => rfl
    | some c => simp [notWsOpt, h3 c hx]
  have hg : notWsOpt (stripWs (collapse (removeOnce s.toList))).getLast? = true := by
    cases hx : (stripWs (collapse (removeOnce s.toList))).getLast? with
    | none => rfl
    | some c => simp [notWsOpt, h4 c hx]
  rw [noEdgeWs, hh, hg, hn]
  rfl

/-! ### Full-text probing theorems -/

/-- C2 counterexample: a response whose nested wrapper is present but has
neither `originalText` nor `originalTextHtml`, while the top level carries
`originalTextHtml = "HTML"`. The claim says the top-level field is still
probed and its value returned; the code's `elif` never reaches the top
level, the probe yields nothing and the content is empty. -/
theorem c2_wrapper_blocks_toplevel_counterexample :
    probeFullText (JVal.obj
      [("full-text-retrieval-response", JVal.obj [("coredata", JVal.s "x")]),
       ("originalTextHtml", JVal.s "HTML")]) = none ∧
    fullTextContent (JVal.obj
      [("full-text-retrieval-response", JVal.obj [("coredata", JVal.s "x")]),
       ("originalTextHtml", JVal.s "HTML")]) = JVal.s "" ∧
    (JVal.obj
      [("full-text-retrieval-response", JVal.obj [("coredata", JVal.s "x")]),
       ("originalTextHtml", JVal.s "HTML")]).get "originalTextHtml" =
      some (JVal.s "HTML") :=
  ⟨rfl, rfl, rfl⟩

/-- C2 (amended): when the nested wrapper is present, only the wrapper's
`originalText` then `originalTextHtml` are probed; the top-level fields
are probed only when the wrapper is absent; and for a response containing
only a top-level `originalTextHtml` the retrieval returns that field's
value, not empty content. -/
theorem c2_probe_order :
    (∀ data w : JVal, data.get "full-text-retrieval-response" = some w →
      probeFullText data =
        (match w.get "originalText" with
         | some v => some v
         | none => w.get "originalTextHtml")) ∧
    (∀ data : JVal, data.get "full-text-retrieval-response" = none →
      probeFullText data =
        (match data.get "originalText" with
         | some v => some v
         | none => data.get "originalTextHtml")) ∧
    fullTextContent (JVal.obj [("originalTextHtml", JVal.s "HTML")]) =
      JVal.s "HTML" := by
  refine ⟨?_, ?_, rfl⟩
  · intro data w h
    rw [probeFullText, h]
  · intro data h
    rw [probeFullText, h]

/-- Witness for C2 (amended), discharging both hypotheses at concrete
responses. -/
theorem c2_probe_order_witness :
    probeFullText (JVal.obj
        [("full-text-retrieval-response", JVal.obj [("coredata", JVal.s "x")])]) =
      (match (JVal.obj [("coredata", JVal.s "x")]).get "originalText" with
       | some v => some v
       | none => (JVal.obj [("coredata", JVal.s "x")]).get "originalTextHtml") ∧
    probeFullText (JVal.obj [("originalTextHtml", JVal.s "HTML")]) =
      (match (JVal.obj [("originalTextHtml", JVal.s "HTML")]).get "originalText" with
       | some v => some v
       | none =>
         (JVal.obj [("originalTextHtml", JVal.s "HTML")]).get "originalTextHtml") :=
  ⟨c2_probe_order.1 (JVal.obj
      [("full-text-retrieval-response", JVal.obj [("coredata", JVal.s "x")])])
      (JVal.obj [("coredata", JVal.s "x")]) rfl,
   c2_probe_order.2.1 (JVal.obj [("originalTextHtml", JVal.s "HTML")]) rfl⟩

/-- C9: when the probed full-text field is present but its value is falsy
(the empty string or the empty object), the manuscript content is empty
rather than the field's value or its serialisation. -/
theorem c9_empty_value_empty_content (data v : JVal)
    (h : probeFullText data = some v) (hf : truthy v = false) :
    fullTextContent data = JVal.s "" := by
  rw [fullTextContent, h]
  simp [hf]

/-- Witness for C9: an empty-string `originalText` and an empty-object
`originalText`, both yielding empty content. -/
theorem c9_empty_value_empty_content_witness :
    (probeFullText (JVal.obj [("originalText", JVal.s "")]) =
        some (JVal.s "") ∧
      truthy (JVal.s "") = false ∧
      fullTextContent (JVal.obj [("originalText", JVal.s "")]) = JVal.s "") ∧
    (probeFullText (JVal.obj [("originalText", JVal.obj [])]) =
        some (JVal.obj []) ∧
      truthy (JVal.obj []) = false ∧
      fullTextContent (JVal.obj [("originalText", JVal.obj [])]) = JVal.s "") :=
  ⟨⟨rfl, rfl, c9_empty_value_empty_content _ _ rfl rfl⟩,
   ⟨rfl, rfl, c9_empty_value_empty_content _ _ rfl rfl⟩⟩

/-! ### Record-loop theorems -/

/-- C1 counterexample: record "A" whose page-render step throws, followed
by a healthy record "B". The claim says an artifact is still written for
"A", its scratch area is absent afterward, and "B" is still processed; in
the code the exception escapes the loop: no artifact at all is written,
"A"'s scratch area remains, no record completes, and the run halts. -/
theorem c1_render_error_halts_batch_counterexample :
    (runBatch [⟨"A", true, false, false, false⟩,
               ⟨"B", false, false, false, false⟩]).outputs = [] ∧
    (runBatch [⟨"A", true, false, false, false⟩,
               ⟨"B", false, false, false, false⟩]).scratches = ["A"] ∧
    (runBatch [⟨"A", true, false, false, false⟩,
               ⟨"B", false, false, false, false⟩]).completed = 0 ∧
    (runBatch [⟨"A", true, false, false, false⟩,
               ⟨"B", false, false, false, false⟩]).halted = true :=
  ⟨rfl, rfl, rfl, rfl⟩

/-- C1 (amended): an unexpected error at the page-render step (or any
other unguarded stage) halts the entire batch — no artifact is written
for that record, its scratch area remains, and no further record is
processed. Only the TXT-cleaning step is error-isolated: its failure
merely loses that record's artifact while the batch continues. -/
theorem c1_render_error_halts_batch :
    (∀ (r : RecSpec) (rest : List RecSpec), r.renderThrows = true →
      runBatch (r :: rest) =
        { outputs := [], scratches := [r.code], completed := 0,
          halted := true }) ∧
    (∀ (st : BatchState) (r : RecSpec), r.renderThrows = false →
      r.harvestThrows = false → r.normalizeThrows = false →
      r.cleanThrows = true →
      processRecord st r = .ok { st with
        scratches := (st.scratches ++ [r.code]).filter (fun s => s != r.code),
        completed := st.completed + 1 }) := by
  constructor
  · intro r rest h
    simp [runBatch, runBatchAux, processRecord, h]
  · intro st r h1 h2 h3 h4
    simp [processRecord, h1, h2, h3, h4]

/-- Witness for C1 (amended): a concrete render failure halting a
one-record batch, and a concrete guarded cleaning failure that does not
halt the record. -/
theorem c1_render_error_halts_batch_witness :
    runBatch [⟨"X", true, false, false, false⟩] =
      { outputs := [], scratches := ["X"], completed := 0, halted := true } ∧
    processRecord {} ⟨"Y", false, false, false, true⟩ =
      .ok { outputs := [],
            scratches := (([] : List String) ++ ["Y"]).filter
              (fun s => s != "Y"),
            completed := 0 + 1, halted := false } :=
  ⟨c1_render_error_halts_batch.1 ⟨"X", true, false, false, false⟩ [] rfl,
   c1_render_error_halts_batch.2 {} ⟨"Y", false, false, false, true⟩
     rfl rfl rfl rfl⟩

/-- C3 counterexample: the pattern-configuration file is opened inside
`download_supporting_materials`, i.e. during the harvest stage of the
first record, not at startup. With a bad pattern file the run halts, but
only after record "A"'s processing has begun: its scratch directory has
already been created (and remains). A render failure on a good pattern
file also halts the run, so the pattern-file abort is not the run's only
hard failure mode. -/
theorem c3_pattern_error_not_startup_counterexample :
    (runBatch [⟨"A", false, true, false, false⟩]).halted = true ∧
    (runBatch [⟨"A", false, true, false, false⟩]).scratches = ["A"] ∧
    (runBatch [⟨"A", false, true, false, false⟩]).outputs = [] ∧
    (runBatch [⟨"B", true, false, false, false⟩]).halted = true :=
  ⟨rfl, rfl, rfl, rfl⟩

/-- C3 (amended): a missing or malformed pattern file raises uncaught in
the harvest stage of the first record: the run halts during that record
(after its retrieval, scratch creation and render), with no artifact
written and the scratch directory left behind — not before the first
record is processed, and not as the run's only hard failure mode. -/
theorem c3_bad_pattern_halts_in_first_record :
    ∀ (r : RecSpec) (rest : List RecSpec), r.renderThrows = false →
      r.harvestThrows = true →
      runBatch (r :: rest) =
        { outputs := [], scratches := [r.code], completed := 0,
          halted := true } := by
  intro r rest h1 h2
  simp [runBatch, runBatchAux, processRecord, h1, h2]

/-- Witness for C3 (amended) at a concrete one-record worklist. -/
theorem c3_bad_pattern_halts_in_first_record_witness :
    runBatch [⟨"Z", false, true, false, false⟩] =
      { outputs := [], scratches := ["Z"], completed := 0, halted := true } :=
  c3_bad_pattern_halts_in_first_record ⟨"Z", false, true, false, false⟩ []
    rfl rfl

/-! ### Text/structure extraction theorems -/

/-- A failing page anywhere in the document makes the page loop raise. -/
theorem renderPages_none_of_failing : ∀ (idx : Nat) (pages : List Page),
    (∃ p ∈ pages, p.failing = true) → renderPages idx pages = none := by
  intro idx pages
  induction pages generalizing idx with
  | nil =>
    intro h
    rcases h with ⟨p, hp, _⟩
    cases hp
  | cons p rest ih =>
    intro h
    by_cases hp : p.failing = true
    · rw [renderPages, if_pos hp]
    · rw [renderPages, if_neg hp]
      rcases h with ⟨q, hq, hqf⟩
      rcases List.mem_cons.mp hq with h | h
      · exact absurd (h ▸ hqf) hp
      · rw [ih (idx + 1) ⟨q, h, hqf⟩]

/-- C4 counterexample: a three-page document whose middle page fails
extraction. The claim says only that page is skipped and the other
pages' text is still included; the code's single `try` around the whole
page loop returns `""` for the entire document (second conjunct shows
the first page alone does produce output, so the loss is real). -/
theorem c4_page_failure_drops_document_counterexample :
    pdf_to_html_with_pdfplumber
      [⟨some "GOOD1", [], false⟩, ⟨none, [], true⟩,
       ⟨some "GOOD3", [], false⟩] = "" ∧
    pdf_to_html_with_pdfplumber [⟨some "GOOD1", [], false⟩] =
      "<h2>Page 1</h2>\n<p>GOOD1</p>\n" :=
  ⟨rfl, rfl⟩

/-- C4 (amended): a page-level extraction failure empties the whole
document's output (the error is logged once at document level), while
other documents in the scratch area are unaffected: a failing document
among the PDFs contributes an empty string and its siblings still
contribute their extracted text. -/
theorem c4_page_failure_empties_document :
    (∀ (pages : List Page), (∃ p ∈ pages, p.failing = true) →
      pdf_to_html_with_pdfplumber pages = "") ∧
    convert_files_to_html
      [ScratchEntry.file "bad.pdf" [⟨none, [], true⟩],
       ScratchEntry.file "good.pdf" [⟨some "OK", [], false⟩]] =
      "\n<h2>Page 1</h2>\n<p>OK</p>\n" := by
  constructor
  · intro pages h
    rw [pdf_to_html_with_pdfplumber, renderPages_none_of_failing 0 pages h]
  · rfl

/-- Witness for C4 (amended) on a concrete failing document. -/
theorem c4_page_failure_empties_document_witness :
    pdf_to_html_with_pdfplumber
      [⟨some "GOOD1", [], false⟩, ⟨none, [], true⟩] = "" :=
  c4_page_failure_empties_document.1
    [⟨some "GOOD1", [], false⟩, ⟨none, [], true⟩]
    ⟨⟨none, [], true⟩, by simp, rfl⟩

/-! ### Scratch-area filtering theorems -/

/-- C5 counterexample: the extension filter only lists the top level of
the scratch area and skips directories, so a disallowed file inside a
subdirectory (here `d.exe` inside `sub`, as left by archive expansion)
is still present in the scratch area after the filter, contradicting
"every file in the ScratchArea ... is deleted". -/
theorem c5_subdir_file_survives_counterexample :
    remove_else_file
      [ScratchEntry.file "a.docx" [], ScratchEntry.file "b.pdf" [],
       ScratchEntry.file "c.exe" [], ScratchEntry.dir "sub" ["d.exe"]] =
      [ScratchEntry.file "a.docx" [], ScratchEntry.file "b.pdf" [],
       ScratchEntry.dir "sub" ["d.exe"]] := rfl

/-- C5 (amended): every top-level file with a disallowed extension
(case-insensitive) is deleted and every allowed one kept — subdirectory
contents are untouched (but also never read by normalization); on the
flat scenario with one `.docx`, one `.pdf` and one `.exe`, the `.exe` is
absent post-filter and exactly the two documents contribute extracted
text. -/
theorem c5_toplevel_extension_filter :
    (∀ (entries : List ScratchEntry) (n : String) (pages : List Page),
      ScratchEntry.file n pages ∈ entries →
      allowedExt (lowerStr (splitextExt n)) = false →
      ScratchEntry.file n pages ∉ remove_else_file entries) ∧
    (∀ (entries : List ScratchEntry) (n : String) (pages : List Page),
      ScratchEntry.file n pages ∈ entries →
      allowedExt (lowerStr (splitextExt n)) = true →
      ScratchEntry.file n pages ∈ remove_else_file entries) ∧
    remove_else_file
      [ScratchEntry.file "a.docx" [⟨some "DOCTEXT", [], false⟩],
       ScratchEntry.file "b.pdf" [⟨some "PDFTEXT", [], false⟩],
       ScratchEntry.file "c.exe" [⟨some "EVIL", [], false⟩]] =
      [ScratchEntry.file "a.docx" [⟨some "DOCTEXT", [], false⟩],
       ScratchEntry.file "b.pdf" [⟨some "PDFTEXT", [], false⟩]] ∧
    supplementaryOf
      [ScratchEntry.file "a.docx" [⟨some "DOCTEXT", [], false⟩],
       ScratchEntry.file "b.pdf" [⟨some "PDFTEXT", [], false⟩],
       ScratchEntry.file "c.exe" [⟨some "EVIL", [], false⟩]] =
      "<h2>Page 1</h2>\n<p>PDFTEXT</p>\n\n<h2>Page 1</h2>\n<p>DOCTEXT</p>\n" := by
  refine ⟨?_, ?_, rfl, rfl⟩
  · intro entries n pages hmem hext hcontra
    have := (List.mem_filter.mp hcontra).2
    simp only at this
    rw [hext] at this
    cases this
  · intro entries n pages hmem hext
    apply List.mem_filter.mpr
    refine ⟨hmem, ?_⟩
    simpa using hext

/-- Witness for C5 (amended): the `.exe` is dropped, the `.docx` kept. -/
theorem c5_toplevel_extension_filter_witness :
    ScratchEntry.file "c.exe" [] ∉
      remove_else_file [ScratchEntry.file "c.exe" []] ∧
    ScratchEntry.file "a.docx" [] ∈
      remove_else_file [ScratchEntry.file "a.docx" []] :=
  ⟨c5_toplevel_extension_filter.1 [ScratchEntry.file "c.exe" []]
      "c.exe" [] (by simp) rfl,
   c5_toplevel_extension_filter.2.1 [ScratchEntry.file "a.docx" []]
      "a.docx" [] (by simp) rfl⟩

/-! ### Archive-expansion theorems -/

/-- C7: archive expansion is a no-op for a non-ZIP input and for a
damaged archive (both merely reported, never fatal); a zip containing a
zip containing a zip is fully flattened three levels deep; a corrupted
archive among siblings leaves only its own (empty) stem directory while
the others expand; and in general every `.zip`-named valid archive among
a directory's files gets a sibling stem-named directory holding its
expanded contents, at every nesting level. -/
theorem c7_archive_expansion :
    (∀ n : String, unzip_file (Item.plain n) = DirNode.mk [] []) ∧
    (∀ n : String, unzip_file (Item.corrupt n) = DirNode.mk [] []) ∧
    unzip_file (Item.archive "a.zip"
      [Item.archive "b.zip" [Item.archive "c.zip" [Item.plain "f.txt"]]]) =
      DirNode.mk ["b.zip"]
        [("b", DirNode.mk ["c.zip"]
          [("c", DirNode.mk ["f.txt"] [])])] ∧
    unzip_file (Item.archive "top.zip"
      [Item.corrupt "bad.zip", Item.archive "good.zip" [Item.plain "g.txt"]]) =
      DirNode.mk ["bad.zip", "good.zip"]
        [("bad", DirNode.mk [] []), ("good", DirNode.mk ["g.txt"] [])] ∧
    (∀ (items : List Item) (n : String) (cs : List Item),
      Item.archive n cs ∈ items → isZipName n = true →
      (splitextStem n, DirNode.mk (cs.map Item.name) (subsOf cs)) ∈
        subsOf items) := by
  refine ⟨fun n => rfl, fun n => rfl, rfl, rfl, ?_⟩
  intro items n cs
  induction items with
  | nil => intro h _; cases h
  | cons it rest ih =>
    intro hmem hz
    rcases List.mem_cons.mp hmem with h | h
    · rw [← h]
      simp only [subsOf]
      rw [if_pos (by simpa [Item.name] using hz)]
      exact List.mem_cons_self _ _
    · by_cases hz' : isZipName it.name = true
      · simp only [subsOf]
        rw [if_pos hz']
        exact List.mem_cons_of_mem _ (ih h hz)
      · simp only [subsOf]
        rw [if_neg hz']
        exact ih h hz

/-- Witness for C7: the universally quantified walk property at a
concrete directory listing. -/
theorem c7_archive_expansion_witness :
    (splitextStem "n.zip",
      DirNode.mk ([Item.plain "p"].map Item.name) (subsOf [Item.plain "p"])) ∈
      subsOf [Item.plain "other", Item.archive "n.zip" [Item.plain "p"]] :=
  c7_archive_expansion.2.2.2.2
    [Item.plain "other", Item.archive "n.zip" [Item.plain "p"]]
    "n.zip" [Item.plain "p"] (by simp) rfl

end Crawler
